import Mathlib

/-!
Verification of the path-pattern compiler of the Styrene repository
(the module exporting the route-template function that the server
registers routes with).  The compiler pipeline is: lexer, recursive
parser, group flattener, sequence compiler (to a case-insensitive
anchored pattern), and a matcher that extracts percent-decoded
parameters.

The JavaScript source builds a JS RegExp source string and relies on
JS RegExp semantics.  Here the generated pattern is embedded
structurally: each regex fragment the source emits (escaped literal
text, a one-or-more capture over a single-character matcher, the
anchored alternation wrapper with the optional trailing delimiter) is
represented by an executable Lean function with JS backtracking
semantics, so the whole pipeline is computable.  Strings are handled
as lists of Unicode scalar values, matching the source, which spreads
the template into codepoints before scanning.
-/

set_option maxHeartbeats 2000000

namespace Styrene

/-- Errors thrown by the compiler (all are JS TypeError values carrying
a message and usually a codepoint index; match time itself can only
throw URIError, modelled separately). -/
inductive PErr where
  | unterminatedQuote (pos : Nat)
  | missingParamName (idx : Nat)
  | unexpectedToken (got : String) (idx : Nat) (expected : String)
  | missingText (name : String)
deriving DecidableEq

/-- Lexer tokens.  The source produces objects with a type string, a
codepoint index and a value; the simple structural tokens are the
characters of SIMPLE_TOKENS, and escaped carries the codepoint
following a backslash (none when the backslash is the final codepoint,
modelling the undefined value the source stores there).  The terminal
END token is represented by the end of the token list. -/
inductive LexTok where
  | simple (c : Char) (index : Nat)
  | escaped (c : Option Char) (index : Nat)
  | char (c : Char) (index : Nat)
  | param (name : String) (index : Nat)
  | wildcard (name : String) (index : Nat)
deriving DecidableEq

/-- The single-character tokens of the source's SIMPLE_TOKENS table
(including the braces, which the parser does consume). -/
def SIMPLE_TOKENS (c : Char) : Bool :=
  c = '{' || c = '}' || c = '(' || c = ')' || c = '[' || c = ']' ||
  c = '+' || c = '?' || c = '!'

/-- Approximation of the source's ID_START class (dollar, underscore,
or a Unicode ID_Start codepoint; the Unicode class is modelled by its
ASCII-letter part, which covers every identifier appearing in the
repository and its tests). -/
def idStart (c : Char) : Bool :=
  c = '$' || c = '_' || c.isAlpha

/-- Approximation of the source's ID_CONTINUE class (dollar,
zero-width joiner or non-joiner, or a Unicode ID_Continue codepoint,
modelled by its ASCII part: letters, digits, underscore, dollar). -/
def idContinue (c : Char) : Bool :=
  c = '$' || c = '_' || c = '‌' || c = '‍' || c.isAlpha || c.isDigit

/-- Scanner for the quoted form of a parameter name: consumes
codepoints until an unescaped closing quote, honouring backslash
escapes.  Returns the accumulated name and the number of codepoints
consumed (contents plus the closing quote), or none when the input
ends before the closing quote (the source then reports the position of
the opening quote). -/
def quotedName : List Char → Option (String × Nat)
  | [] => none
  | '\\' :: [] => none
  | '\\' :: c :: rest =>
    match quotedName rest with
    | some (value, n) => some (⟨c :: value.data⟩, n + 2)
    | none => none
  | c :: rest =>
    if c = '"' then some ("", 1)
    else
      match quotedName rest with
      | some (value, n) => some (⟨c :: value.data⟩, n + 1)
      | none => none

/-- The source's name() helper: reads a parameter or wildcard name
right after a ':' or '*' standing at codepoint index p, from the
remaining codepoints cs.  Returns the name together with how many
codepoints of cs it consumed; the main loop resumes at index
p + 1 + consumed, which the source also stores as the token index. -/
def lexName (cs : List Char) (p : Nat) : Except PErr (String × Nat) :=
  match cs with
  | [] => .error (.missingParamName (p + 1))
  | c :: rest =>
    if idStart c then
      let tail := rest.takeWhile idContinue
      .ok (⟨c :: tail⟩, 1 + tail.length)
    else if c = '"' then
      match quotedName rest with
      | none => .error (.unterminatedQuote (p + 1))
      | some (value, n) =>
        if value = "" then .error (.missingParamName (p + 2 + n))
        else .ok (value, 1 + n)
    else .error (.missingParamName (p + 1))

/-- The lexer loop of the source, made eager: scans the codepoint list
and produces the whole token list (laziness is immaterial here: a
compilation succeeds exactly when every token is produced and
consumed, and the claims below only distinguish success from failure).
i is the codepoint index of the head of cs.  The fuel argument makes
the recursion structural (each step consumes at least one codepoint,
so fuel = length of the input suffices; the fuel-exhaustion branch is
unreachable from lexer, see lexLoop_fuel). -/
def lexLoop : Nat → List Char → Nat → Except PErr (List LexTok)
  | _, [], _ => .ok []
  | 0, _ :: _, _ => .error (.missingParamName 0)
  | fuel + 1, c :: rest, i =>
    if SIMPLE_TOKENS c then
      (lexLoop fuel rest (i + 1)).map (LexTok.simple c i :: ·)
    else if c = '\\' then
      match rest with
      | [] => .ok [LexTok.escaped none i]
      | d :: rest2 => (lexLoop fuel rest2 (i + 2)).map (LexTok.escaped (some d) i :: ·)
    else if c = ':' then
      match lexName rest i with
      | .error e => .error e
      | .ok (value, consumed) =>
        (lexLoop fuel (rest.drop consumed) (i + 1 + consumed)).map
          (LexTok.param value (i + 1 + consumed) :: ·)
    else if c = '*' then
      match lexName rest i with
      | .error e => .error e
      | .ok (value, consumed) =>
        (lexLoop fuel (rest.drop consumed) (i + 1 + consumed)).map
          (LexTok.wildcard value (i + 1 + consumed) :: ·)
    else
      (lexLoop fuel rest (i + 1)).map (LexTok.char c i :: ·)

/-- The source's lexer applied to a template string. -/
def lexer (str : String) : Except PErr (List LexTok) :=
  lexLoop str.data.length str.data 0

/-- Parsed AST nodes (the source's parse output objects, tagged
"text", "param", "wildcard", "group"). -/
inductive Tok where
  | text (value : String)
  | param (name : String)
  | wildcard (name : String)
  | group (tokens : List Tok)

/-- The token-type string the source prints in "Unexpected ..."
messages. -/
def LexTok.typeName : LexTok → String
  | .simple c _ => String.singleton c
  | .escaped _ _ => "ESCAPED"
  | .char _ _ => "CHAR"
  | .param _ _ => "PARAM"
  | .wildcard _ _ => "WILDCARD"

/-- Appends one literal codepoint to the current (reversed) node list,
merging it into a topmost text node exactly as the parser's text()
helper concatenates a maximal CHAR/ESCAPED run into one text node. -/
def addText (cur : List Tok) (c : Char) : List Tok :=
  match cur with
  | .text s :: rest => .text (s.push c) :: rest
  | _ => .text (String.singleton c) :: cur

/-- The parser loop.  The source is a recursive descent with one-token
lookahead; it is rendered here as the equivalent single pass carrying
the current (reversed) sequence and a stack of enclosing group
sequences.  endIdx is the codepoint index carried by the terminal END
token.  A simple token other than a brace always reaches the source's
consume(endType) call and raises "Unexpected <type>, expected
<endType>". -/
def parseLoop (endIdx : Nat) : List LexTok → List Tok → List (List Tok) → Except PErr (List Tok)
  | [], cur, [] => .ok cur.reverse
  | [], _, _ :: _ => .error (.unexpectedToken "END" endIdx "\x7d")
  | .char c _ :: ts, cur, stk => parseLoop endIdx ts (addText cur c) stk
  | .escaped (some c) _ :: ts, cur, stk => parseLoop endIdx ts (addText cur c) stk
  | .escaped none _ :: ts, cur, stk => parseLoop endIdx ts cur stk
  | .param n _ :: ts, cur, stk => parseLoop endIdx ts (.param n :: cur) stk
  | .wildcard n _ :: ts, cur, stk => parseLoop endIdx ts (.wildcard n :: cur) stk
  | .simple c i :: ts, cur, stk =>
    if c = '{' then parseLoop endIdx ts [] (cur :: stk)
    else if c = '}' then
      match stk with
      | parent :: stk2 => parseLoop endIdx ts (.group cur.reverse :: parent) stk2
      | [] => .error (.unexpectedToken "\x7d" i "END")
    else
      .error (.unexpectedToken (String.singleton c) i
        (if stk.isEmpty then "END" else "\x7d"))

/-- The source's parse(str): lex, then run the token stream through
the sequence grammar, ending at the END token. -/
def parse (str : String) : Except PErr (List Tok) :=
  match lexer str with
  | .error e => .error e
  | .ok toks => parseLoop str.length toks [] []

mutual

/-- Size of one AST node (groups count their children), used as the
fuel bound of the flattener. -/
def tokSize : Tok → Nat
  | .text _ => 1
  | .param _ => 1
  | .wildcard _ => 1
  | .group g => 1 + toksSize g

/-- Total size of a node list. -/
def toksSize : List Tok → Nat
  | [] => 0
  | t :: rest => tokSize t + toksSize rest

end

/-- Recursion worker for the flattener, structural in a fuel argument
bounded by the tree size (the fuel-exhaustion branch is unreachable
when the fuel is at least toksSize tokens, see flattenF_fuel). -/
def flattenF : Nat → List Tok → List Tok → List (List Tok)
  | _, [], init => [init]
  | 0, _ :: _, init => [init]
  | fuel + 1, .group g :: rest, init =>
    ((flattenF fuel g init).flatMap (fun seq => flattenF fuel rest seq)) ++
      flattenF fuel rest init
  | fuel + 1, t :: rest, init => flattenF fuel rest (init ++ [t])

/-- The source's generator flatten(tokens, index, init), rendered as
the list of all yielded flattened sequences in yield order: a group
contributes every alternative of its children followed by the rest
("include" branches, in order) and then the rest alone (the "omit"
branch). -/
def flatten (tokens : List Tok) (init : List Tok) : List (List Tok) :=
  flattenF (toksSize tokens) tokens init

/-- One element of a compiled pattern fragment: a literal codepoint
(the source escapes it into the regex string; under the structural
embedding escaping is the identity on meaning), or a one-or-more
greedy capturing group over a single-character matcher, which is
handed the whole remaining input so that it can express the negative
lookahead the source emits for long backtrack text. -/
inductive Item where
  | lit (c : Char)
  | cap (test : List Char → Bool)

/-- JS canonicalisation for the "i" flag, modelled on its ASCII part
(the only cased codepoints exercised anywhere in the repository). -/
def fold (c : Char) : Char := c.toUpper

/-- Case-insensitive "the literal b occurs here" test, used for the
(?!...) negative lookaheads the source builds from backtrack text. -/
def startsWithFold (b : List Char) (cs : List Char) : Bool :=
  (b.map fold).isPrefixOf (cs.map fold)

/-- Semantics of a negated character class [^s]: one codepoint not in
s (case-insensitively, because every compiled pattern carries the "i"
flag). -/
def classNot (s : String) : List Char → Bool
  | [] => false
  | c :: _ => !((s.data.map fold).contains (fold c))

/-- Semantics of a (?!b) lookahead guarding a one-codepoint matcher. -/
def lookaheadNot (b : String) (inner : List Char → Bool) : List Char → Bool :=
  fun cs => !startsWithFold b.data cs && inner cs

/-- Semantics of the class [\s\S]: any one codepoint. -/
def anyCharOnce : List Char → Bool
  | [] => false
  | _ :: _ => true

/-- The source's negate(delimiter, backtrack): the single-character
matcher of a param capture, with the same four cases keyed on the
lengths of the two strings (a one-codepoint exclusion goes into the
character class, a longer one becomes a negative lookahead). -/
def negate (delimiter backtrack : String) : List Char → Bool :=
  if backtrack.length < 2 then
    if delimiter.length < 2 then classNot (delimiter ++ backtrack)
    else lookaheadNot delimiter (classNot backtrack)
  else if delimiter.length < 2 then lookaheadNot backtrack (classNot delimiter)
  else lookaheadNot backtrack (lookaheadNot delimiter anyCharOnce)

/-- Loop body of the source's sequenceToRegExp: walks the flattened
sequence carrying the fragment built so far, the keys pushed so far,
the backtrack text and the segment-safe flag (initially true). Group
tokens fall through exactly as in the source's for loop. -/
def seqGo : List Tok → List Item → List Tok → String → Bool → Except PErr (List Item × List Tok)
  | [], acc, keys, _, _ => .ok (acc, keys)
  | .text v :: rest, acc, keys, backtrack, safe =>
    seqGo rest (acc ++ v.data.map Item.lit) keys (backtrack ++ v) (safe || v.data.contains '/')
  | .param n :: rest, acc, keys, backtrack, safe =>
    if safe = false ∧ backtrack = "" then .error (.missingText n)
    else
      seqGo rest (acc ++ [.cap (negate "/" (if safe then "" else backtrack))])
        (keys ++ [.param n]) "" false
  | .wildcard n :: rest, acc, keys, backtrack, safe =>
    if safe = false ∧ backtrack = "" then .error (.missingText n)
    else seqGo rest (acc ++ [.cap anyCharOnce]) (keys ++ [.wildcard n]) "" false
  | .group _ :: rest, acc, keys, backtrack, safe => seqGo rest acc keys backtrack safe

/-- The source's sequenceToRegExp(tokens, keys): compiles one
flattened sequence to its pattern fragment, returning the keys it
pushed (the caller concatenates them, which is what the shared mutable
keys array does in the source). -/
def sequenceToRegExp (tokens : List Tok) : Except PErr (List Item × List Tok) :=
  seqGo tokens [] [] "" true

/-- Greedy backtracking for a one-or-more capture: tries the candidate
capture lengths from k down to 1, the order a JS regex engine tries
repetitions of a single-character matcher. -/
def tryKs (f : Nat → Option α) : Nat → Option α
  | 0 => none
  | k + 1 =>
    match f (k + 1) with
    | some r => some r
    | none => tryKs f k

/-- Length of the maximal run of codepoints at the head of cs whose
successive suffixes all satisfy the single-character matcher. -/
def countRun (test : List Char → Bool) : List Char → Nat
  | [] => 0
  | c :: cs => if test (c :: cs) then countRun test cs + 1 else 0

/-- Matches one alternative of the compiled pattern against the input,
followed by the wrapper's trailing (?:\/$)?$ (an optional delimiter
and the end anchor), returning the captured strings and the remaining
input (always empty, since the pattern is end-anchored).  Greedy
captures backtrack from the longest run, as in JS. -/
def runSeq : List Item → List Char → Option (List String × List Char)
  | [], cs => if cs = [] ∨ cs = ['/'] then some ([], []) else none
  | .lit c :: items, cs =>
    match cs with
    | [] => none
    | d :: cs2 => if fold c = fold d then runSeq items cs2 else none
  | .cap t :: items, cs =>
    tryKs (fun k =>
      match runSeq items (cs.drop k) with
      | some (caps, rem) => some ((⟨cs.take k⟩ : String) :: caps, rem)
      | none => none) (countRun t cs)

/-- Number of capturing groups an alternative contributes. -/
def capCount (items : List Item) : Nat :=
  items.countP (fun it => match it with | .cap _ => true | _ => false)

/-- Evaluates the compiled anchored alternation against the input the
way RegExp.exec does: alternatives are tried left to right, the first
that matches wins, and the result is the matched text m[0] together
with one entry per capturing group across the whole pattern (undefined
for the groups of the alternatives that did not participate). -/
def execGo : List (List Item) → List Char → Option (String × List (Option String))
  | [], _ => none
  | alt :: alts, cs =>
    match runSeq alt cs with
    | some (caps, rem) =>
      some (⟨cs.take (cs.length - rem.length)⟩,
        caps.map some ++ List.replicate (alts.map capCount).sum none)
    | none =>
      match execGo alts cs with
      | some (m0, gs) => some (m0, List.replicate (capCount alt) none ++ gs)
      | none => none

/-- Value of a hexadecimal digit, as accepted inside a %-escape. -/
def hexDigit (c : Char) : Option Nat :=
  let n := c.toNat
  if 48 ≤ n ∧ n ≤ 57 then some (n - 48)
  else if 65 ≤ n ∧ n ≤ 70 then some (n - 55)
  else if 97 ≤ n ∧ n ≤ 102 then some (n - 87)
  else none

/-- First phase of the ECMAScript Decode algorithm behind
decodeURIComponent: every % must be followed by two hex digits and
becomes a byte; every other codepoint passes through.  none models a
thrown URIError. -/
def pctAtoms : List Char → Option (List (Char ⊕ Nat))
  | [] => some []
  | '%' :: h :: l :: rest =>
    match hexDigit h, hexDigit l with
    | some hv, some lv => (pctAtoms rest).map (.inr (hv * 16 + lv) :: ·)
    | _, _ => none
  | '%' :: _ => none
  | c :: rest => (pctAtoms rest).map (.inl c :: ·)

/-- Second phase of Decode: bytes produced from %-escapes must form
strict UTF-8 (correct continuation bytes, no overlong forms, no
surrogates, at most U+10FFFF), and each decoded scalar value becomes
one codepoint; passed-through codepoints stay as they are.  none
models a thrown URIError.  Structural in a fuel argument: each step
consumes at least one atom, so fuel = length of the atom list
suffices, as supplied by decodeURIComponent below. -/
def utf8AtomsF : Nat → List (Char ⊕ Nat) → Option (List Char)
  | _, [] => some []
  | 0, _ :: _ => none
  | fuel + 1, .inl c :: rest => (utf8AtomsF fuel rest).map (c :: ·)
  | fuel + 1, .inr b :: rest =>
    if b < 0x80 then (utf8AtomsF fuel rest).map (Char.ofNat b :: ·)
    else if 0xC2 ≤ b ∧ b ≤ 0xDF then
      match rest with
      | .inr b2 :: rest2 =>
        if 0x80 ≤ b2 ∧ b2 ≤ 0xBF then
          (utf8AtomsF fuel rest2).map (Char.ofNat ((b - 0xC0) * 64 + (b2 - 0x80)) :: ·)
        else none
      | _ => none
    else if 0xE0 ≤ b ∧ b ≤ 0xEF then
      match rest with
      | .inr b2 :: .inr b3 :: rest2 =>
        if (0x80 ≤ b2 ∧ b2 ≤ 0xBF) ∧ (0x80 ≤ b3 ∧ b3 ≤ 0xBF) ∧
            ¬(b = 0xE0 ∧ b2 < 0xA0) ∧ ¬(b = 0xED ∧ 0x9F < b2) then
          (utf8AtomsF fuel rest2).map
            (Char.ofNat ((b - 0xE0) * 4096 + (b2 - 0x80) * 64 + (b3 - 0x80)) :: ·)
        else none
      | _ => none
    else if 0xF0 ≤ b ∧ b ≤ 0xF4 then
      match rest with
      | .inr b2 :: .inr b3 :: .inr b4 :: rest2 =>
        if (0x80 ≤ b2 ∧ b2 ≤ 0xBF) ∧ (0x80 ≤ b3 ∧ b3 ≤ 0xBF) ∧
            (0x80 ≤ b4 ∧ b4 ≤ 0xBF) ∧
            ¬(b = 0xF0 ∧ b2 < 0x90) ∧ ¬(b = 0xF4 ∧ 0x8F < b2) then
          (utf8AtomsF fuel rest2).map
            (Char.ofNat ((b - 0xF0) * 262144 + (b2 - 0x80) * 4096 +
              (b3 - 0x80) * 64 + (b4 - 0x80)) :: ·)
        else none
      | _ => none
    else none

/-- JS decodeURIComponent; none models a thrown URIError. -/
def decodeURIComponent (s : String) : Option String :=
  match pctAtoms s.data with
  | none => none
  | some atoms => (utf8AtomsF atoms.length atoms).map (fun cs => (⟨cs⟩ : String))

/-- JS String.prototype.split with a one-character separator (the
wildcard decoder splits the captured run on the delimiter). -/
def splitOnChar (sep : Char) : List Char → List (List Char)
  | [] => [[]]
  | c :: cs =>
    match splitOnChar sep cs with
    | [] => [[c]]
    | g :: gs => if c = sep then [] :: g :: gs else (c :: g) :: gs

/-- A decoded parameter value: one string for a param capture, an
ordered list of strings for a wildcard capture. -/
inductive PValue where
  | str (s : String)
  | list (l : List String)
deriving DecidableEq

/-- Name carried by a key (a param or wildcard token). -/
def keyName : Tok → String
  | .param n => n
  | .wildcard n => n
  | .text _ => ""
  | .group _ => ""

/-- The decoder the source registers for a key: percent-decoding of
the whole run for a param, split on the delimiter then percent-decode
each piece for anything else (the source tests key.type === "param"
and otherwise uses the wildcard decoder). -/
def decodeFor : Tok → String → Option PValue
  | .param _, v => (decodeURIComponent v).map .str
  | _, v =>
    ((splitOnChar '/' v.data).mapM
      (fun g => decodeURIComponent (⟨g⟩ : String))).map .list

/-- JS object property assignment params[name] = value: replaces the
value in place when the name exists, otherwise appends (JS objects
keep the first-insertion position of a key). -/
def upsert : List (String × PValue) → String → PValue → List (String × PValue)
  | [], n, v => [(n, v)]
  | (k, w) :: rest, n, v =>
    if k = n then (k, v) :: rest else (k, w) :: upsert rest n v

/-- RegExp.exec succeeded without JsErr only when every defined
capture percent-decodes. -/
inductive JsErr where
  | uriError
deriving DecidableEq

/-- A successful match: the matched path (m[0]) and the decoded
params mapping. -/
structure MatchResult where
  path : String
  params : List (String × PValue)
deriving DecidableEq

/-- The compiled matcher state the source closes over: the ordered key
list and the compiled alternation (the decoders are recomputed from
the keys, as key order determines them). -/
structure Matcher where
  keys : List Tok
  alts : List (List Item)

/-- The loop of the source's matchInput over m[1..]: skip undefined
captures, decode the rest with the key's decoder (aborting with
URIError on a malformed escape) and assign into params in order. -/
def buildParams : List (Tok × Option String) → List (String × PValue) → Option (List (String × PValue))
  | [], acc => some acc
  | (_, none) :: rest, acc => buildParams rest acc
  | (k, some v) :: rest, acc =>
    match decodeFor k v with
    | some pv => buildParams rest (upsert acc (keyName k) pv)
    | none => none

/-- The source's matchInput: exec the pattern (no match is the normal
false result, here .ok none), then decode each defined capture. -/
def matchInput (M : Matcher) (input : String) : Except JsErr (Option MatchResult) :=
  match execGo M.alts input.data with
  | none => .ok none
  | some (m0, groups) =>
    match buildParams (M.keys.zip groups) [] with
    | some ps => .ok (some ⟨m0, ps⟩)
    | none => .error .uriError

/-- Folds sequenceToRegExp over every flattened sequence, collecting
the alternation and the shared key list in order. -/
def compileSeqs : List (List Tok) → List (List Item) → List Tok → Except PErr Matcher
  | [], alts, keys => .ok ⟨keys, alts⟩
  | seq :: rest, alts, keys =>
    match sequenceToRegExp seq with
    | .error e => .error e
    | .ok (items, ks) => compileSeqs rest (alts ++ [items]) (keys ++ ks)

/-- The source's exported match(path) builder (named compile here,
match being reserved in Lean; the spec also calls it compile): parse,
flatten, compile every sequence, and close over keys and pattern. -/
def compile (path : String) : Except PErr Matcher :=
  match parse path with
  | .error e => .error e
  | .ok tokens => compileSeqs (flatten tokens []) [] []

/-- compile then match in one step, used to state end-to-end
properties: the outer layer is compile's possible TypeError, the inner
layer is match's possible URIError. -/
def tryMatch (template input : String) : Except PErr (Except JsErr (Option MatchResult)) :=
  (compile template).map (fun M => matchInput M input)

instance {ε α : Type} [DecidableEq ε] [DecidableEq α] : DecidableEq (Except ε α) := fun a b =>
  match a, b with
  | .error e1, .error e2 =>
    if h : e1 = e2 then .isTrue (by rw [h]) else .isFalse (by simp [h])
  | .ok v1, .ok v2 =>
    if h : v1 = v2 then .isTrue (by rw [h]) else .isFalse (by simp [h])
  | .error _, .ok _ => .isFalse (by simp)
  | .ok _, .error _ => .isFalse (by simp)

/-- A reserved simple token: one of ( ) [ ] + ? !, i.e. a
SIMPLE_TOKENS entry other than the braces. -/
def isReservedTok : LexTok → Bool
  | .simple c _ => c ≠ '{' && c ≠ '}'
  | _ => false

/-- The template text with its escape characters removed: each
backslash is dropped and the codepoint after it kept (a trailing
lone backslash is simply dropped). -/
def removeEscapesL : List Char → List Char
  | [] => []
  | c :: rest =>
    if c = '\\' then
      match rest with
      | [] => []
      | d :: rest2 => d :: removeEscapesL rest2
    else c :: removeEscapesL rest

/-- String form of removeEscapesL. -/
def removeEscapes (s : String) : String :=
  ⟨removeEscapesL s.data⟩

/-- The matcher of /a/:id, used to witness the amended C1 theorem at
a concrete matcher. -/
def demoMatcher : Matcher :=
  match compile "/a/:id" with
  | .ok M => M
  | .error _ => ⟨[], []⟩

/-- A token contributing only literal text: CHAR or ESCAPED. -/
def isTextTok : LexTok → Bool
  | .char _ _ => true
  | .escaped _ _ => true
  | _ => false

/-- The literal text carried by a run of CHAR/ESCAPED tokens (an
ESCAPED token with no codepoint contributes nothing, as in text()). -/
def textOfToks : List LexTok → List Char
  | [] => []
  | .char c _ :: ts => c :: textOfToks ts
  | .escaped (some c) _ :: ts => c :: textOfToks ts
  | _ :: ts => textOfToks ts

/-- The node list a pure text run parses to: empty for empty text,
otherwise a single text node. -/
def textRes (l : List Char) : List Tok :=
  if l = [] then [] else [.text ⟨l⟩]

/-- A token the sequence compiler's error rule ignores: empty literal
text, or a group placeholder (groups never occur after flattening, but
the compiler's loop skips them). -/
def inert : Tok → Bool
  | .text v => v = ""
  | .param _ => false
  | .wildcard _ => false
  | .group _ => true

/-- A capture token (param or wildcard). -/
def isCapTok : Tok → Bool
  | .param _ => true
  | .wildcard _ => true
  | _ => false

/-- The sequence reaches a capture before any non-inert token. -/
def startsWithCapture (seq : List Tok) : Prop :=
  ∃ mid c post, seq = mid ++ c :: post ∧ isCapTok c = true ∧ ∀ x ∈ mid, inert x = true

/-- Somewhere in the sequence a capture is followed, after only inert
tokens, by another capture. -/
def hasAdjacentCaptures (seq : List Tok) : Prop :=
  ∃ pre c rest, seq = pre ++ c :: rest ∧ isCapTok c = true ∧ startsWithCapture rest

/-- Any fuel of at least the input length gives the lexer's value:
each lexer step consumes at least one codepoint. -/
theorem lexLoop_fuel (fuel1 fuel2 : Nat) (cs : List Char) (i : Nat)
    (h1 : cs.length ≤ fuel1) (h2 : cs.length ≤ fuel2) :
    lexLoop fuel1 cs i = lexLoop fuel2 cs i := by
  induction fuel1 generalizing fuel2 cs i with
  | zero =>
    cases cs with
    | nil => cases fuel2 <;> rfl
    | cons c rest => simp at h1
  | succ f ih =>
    cases cs with
    | nil => cases fuel2 <;> rfl
    | cons c rest =>
      cases fuel2 with
      | zero => simp at h2
      | succ f2 =>
        simp only [List.length_cons] at h1 h2
        simp only [lexLoop]
        have hih : ∀ (cs2 : List Char) (j : Nat), cs2.length ≤ f → cs2.length ≤ f2 →
            lexLoop f cs2 j = lexLoop f2 cs2 j := fun cs2 j a b => ih f2 cs2 j a b
        split
        · rw [hih rest (i + 1) (by omega) (by omega)]
        · split
          · cases rest with
            | nil => rfl
            | cons d rest2 =>
              exact congrArg (Except.map fun x => LexTok.escaped (some d) i :: x)
                (hih rest2 (i + 2) (by simp at h1; omega) (by simp at h2; omega))
          · split
            · cases hn : lexName rest i with
              | error e => rfl
              | ok vc =>
                obtain ⟨v, k⟩ := vc
                exact congrArg (Except.map fun x => LexTok.param v (i + 1 + k) :: x)
                  (hih (rest.drop k) (i + 1 + k)
                    (by simp [List.length_drop]; omega) (by simp [List.length_drop]; omega))
            · split
              · cases hn : lexName rest i with
                | error e => rfl
                | ok vc =>
                  obtain ⟨v, k⟩ := vc
                  exact congrArg (Except.map fun x => LexTok.wildcard v (i + 1 + k) :: x)
                    (hih (rest.drop k) (i + 1 + k)
                      (by simp [List.length_drop]; omega) (by simp [List.length_drop]; omega))
              · rw [hih rest (i + 1) (by omega) (by omega)]

/-- Every node has positive size. -/
theorem tokSize_pos (t : Tok) : 1 ≤ tokSize t := by
  cases t <;> simp [tokSize]

/-- Any fuel of at least the size of the token tree computes the
flattener's value. -/
theorem flattenF_fuel (fuel1 fuel2 : Nat) (tokens init : List Tok)
    (h1 : toksSize tokens ≤ fuel1) (h2 : toksSize tokens ≤ fuel2) :
    flattenF fuel1 tokens init = flattenF fuel2 tokens init := by
  induction fuel1 generalizing fuel2 tokens init with
  | zero =>
    cases tokens with
    | nil => cases fuel2 <;> rfl
    | cons t rest =>
      have := tokSize_pos t
      simp [toksSize] at h1; omega
  | succ f ih =>
    cases tokens with
    | nil => cases fuel2 <;> rfl
    | cons t rest =>
      cases fuel2 with
      | zero =>
        have := tokSize_pos t
        simp [toksSize] at h2; omega
      | succ f2 =>
        cases t with
        | group g =>
          simp only [toksSize, tokSize] at h1 h2
          simp only [flattenF]
          have hg : ∀ s, flattenF f g s = flattenF f2 g s := fun s =>
            ih f2 g s (by omega) (by omega)
          have hr : ∀ s, flattenF f rest s = flattenF f2 rest s := fun s =>
            ih f2 rest s (by omega) (by omega)
          simp only [hg, hr]
        | text v =>
          simp only [toksSize, tokSize] at h1 h2
          simp only [flattenF]
          exact ih f2 rest (init ++ [.text v]) (by omega) (by omega)
        | param n =>
          simp only [toksSize, tokSize] at h1 h2
          simp only [flattenF]
          exact ih f2 rest (init ++ [.param n]) (by omega) (by omega)
        | wildcard n =>
          simp only [toksSize, tokSize] at h1 h2
          simp only [flattenF]
          exact ih f2 rest (init ++ [.wildcard n]) (by omega) (by omega)

/-- The flattener satisfies the source's recursive group equation:
include alternatives (children resolved first) precede the omit
alternative. -/
theorem flatten_group (g rest init : List Tok) :
    flatten (.group g :: rest) init =
      ((flatten g init).flatMap (fun seq => flatten rest seq)) ++ flatten rest init := by
  unfold flatten
  rw [show toksSize (Tok.group g :: rest) = (toksSize g + toksSize rest) + 1 by
    simp [toksSize, tokSize]; omega]
  simp only [flattenF]
  have hg : ∀ s, flattenF (toksSize g + toksSize rest) g s = flattenF (toksSize g) g s :=
    fun s => flattenF_fuel _ _ g s (by omega) (by omega)
  have hr : ∀ s, flattenF (toksSize g + toksSize rest) rest s =
      flattenF (toksSize rest) rest s :=
    fun s => flattenF_fuel _ _ rest s (by omega) (by omega)
  simp only [hg, hr]

/-- C5: compiling the template "{a}{b}" parses to two groups of
literal text, and enumerating the flattener over that root sequence
yields exactly the four flattened sequences [a,b], [a], [b], [] in
this order; in general the flattener emits every include alternative
of a group (children alternatives first, depth first) before the omit
alternative, at every nesting level. -/
theorem c5_flatten_order :
    parse "{a}{b}" = .ok [.group [.text "a"], .group [.text "b"]] ∧
    flatten [Tok.group [Tok.text "a"], Tok.group [Tok.text "b"]] [] =
      [[Tok.text "a", Tok.text "b"], [Tok.text "a"], [Tok.text "b"], []] ∧
    ∀ (g rest init : List Tok),
      flatten (.group g :: rest) init =
        ((flatten g init).flatMap (fun seq => flatten rest seq)) ++ flatten rest init := by
  refine ⟨rfl, rfl, ?_⟩
  intro g rest init
  exact flatten_group g rest init

/-- C6: matching /files/a/b/c against the wildcard template
/files/*rest succeeds, the path is the whole input, and params.rest is
the ordered list ["a", "b", "c"]: the captured run is split on the
delimiter and each piece percent-decoded. -/
theorem c6_wildcard_splits :
    tryMatch "/files/*rest" "/files/a/b/c" =
      .ok (.ok (some ⟨"/files/a/b/c", [("rest", PValue.list ["a", "b", "c"])]⟩)) := by
  decide

/-- C7: the matcher of /a/:id maps /a/123 to path /a/123 with
params.id = "123", and rejects /a/ (the param must capture at least
one codepoint). -/
theorem c7_param_capture :
    tryMatch "/a/:id" "/a/123" =
      .ok (.ok (some ⟨"/a/123", [("id", PValue.str "123")]⟩)) ∧
    tryMatch "/a/:id" "/a/" = .ok (.ok none) := by
  constructor
  · decide
  · decide

/-- C8: the matcher of /a{/b} accepts both /a and /a/b, and the input
/a/b/ with a trailing delimiter also matches, with the same (empty)
params as /a/b. -/
theorem c8_optional_group :
    tryMatch "/a{/b}" "/a" = .ok (.ok (some ⟨"/a", []⟩)) ∧
    tryMatch "/a{/b}" "/a/b" = .ok (.ok (some ⟨"/a/b", []⟩)) ∧
    tryMatch "/a{/b}" "/a/b/" = .ok (.ok (some ⟨"/a/b/", []⟩)) := by
  refine ⟨by decide, by decide, by decide⟩

/-- C1 counterexample: match can throw after a successful compile.
The matcher of /a/:id applied to /a/% matches the pattern, but
percent-decoding the captured value "%" raises URIError, so match is
not total on inputs as the claim states. -/
theorem c1_counterexample :
    tryMatch "/a/:id" "/a/%" = .ok (.error .uriError) := by
  decide

/-- C2 counterexample: a template containing an unescaped reserved
character does not compile: "(" is lexed as its own token kind and the
parser rejects it with "Unexpected ( at 0, expected END", while the
escaped form compiles and matches the literal character, so the two
forms do not behave the same. -/
theorem c2_counterexample :
    compile "(" = .error (.unexpectedToken "(" 0 "END") ∧
    tryMatch "\\(" "(" = .ok (.ok (some ⟨"(", []⟩)) := by
  exact ⟨rfl, by decide⟩

/-- C3 counterexample: a Param capture standing at the very start of a
flattened sequence, with no literal text before it, is not a
compile-time error: the segment-safe flag starts out true, so both the
bare sequence compiler and compile(":a") succeed. -/
theorem c3_counterexample :
    (sequenceToRegExp [Tok.param "a"]).isOk = true ∧ (compile ":a").isOk = true := by
  exact ⟨rfl, rfl⟩

/-- C4 counterexample: a template ending in a lone backslash is not
rejected: the lexer emits an ESCAPED token with no codepoint, the
parser drops it, and compile("\") yields a matcher that matches the
empty path with no params. -/
theorem c4_counterexample :
    tryMatch "\\" "" = .ok (.ok (some ⟨"", []⟩)) := by
  decide

/-- C9 counterexample: the round-trip fails for a capture-free
template containing a group: /a{/b} has no captures and no escapes (so
removing escape characters leaves it unchanged), yet matching the
template text itself returns false, because the braces are group
syntax rather than literal text. -/
theorem c9_counterexample :
    removeEscapes "/a{/b}" = "/a{/b}" ∧
    tryMatch "/a{/b}" "/a{/b}" = .ok (.ok none) := by
  exact ⟨rfl, by decide⟩

/-- A successful backtracking try comes from one candidate length
between 1 and the bound. -/
theorem tryKs_some {α : Type} (f : Nat → Option α) (n : Nat) (r : α)
    (h : tryKs f n = some r) : ∃ k, 1 ≤ k ∧ k ≤ n ∧ f k = some r := by
  induction n with
  | zero => cases h
  | succ m ih =>
    simp only [tryKs] at h
    cases hf : f (m + 1) with
    | some r2 =>
      rw [hf] at h
      cases h
      exact ⟨m + 1, by omega, by omega, hf⟩
    | none =>
      rw [hf] at h
      obtain ⟨k, a, b, c⟩ := ih h
      exact ⟨k, a, by omega, c⟩

/-- The compiled pattern is end-anchored: a successful alternative
leaves no remaining input. -/
theorem runSeq_rem_nil (items : List Item) (cs : List Char) (caps : List String)
    (rem : List Char) (h : runSeq items cs = some (caps, rem)) : rem = [] := by
  induction items generalizing cs caps rem with
  | nil =>
    simp only [runSeq] at h
    split at h
    · cases h; rfl
    · cases h
  | cons it items ih =>
    cases it with
    | lit c =>
      cases cs with
      | nil => simp [runSeq] at h
      | cons d cs2 =>
        simp only [runSeq] at h
        split at h
        all_goals first
          | exact ih cs2 caps rem h
          | simp at h
    | cap t =>
      simp only [runSeq] at h
      obtain ⟨k, _, _, hf⟩ := tryKs_some _ _ _ h
      cases hr : runSeq items (cs.drop k) with
      | none => rw [hr] at hf; cases hf
      | some pr =>
        obtain ⟨caps2, rem2⟩ := pr
        rw [hr] at hf
        cases hf
        exact ih (cs.drop k) caps2 rem hr

/-- The matched text of a successful exec is the whole input. -/
theorem execGo_path (alts : List (List Item)) (cs : List Char) (m0 : String)
    (gs : List (Option String)) (h : execGo alts cs = some (m0, gs)) : m0 = ⟨cs⟩ := by
  induction alts generalizing gs with
  | nil => cases h
  | cons alt alts ih =>
    simp only [execGo] at h
    cases hr : runSeq alt cs with
    | some pr =>
      obtain ⟨caps, rem⟩ := pr
      have hrem : rem = [] := runSeq_rem_nil _ _ _ _ hr
      subst hrem
      rw [hr] at h
      cases h
      simp
    | none =>
      rw [hr] at h
      cases he : execGo alts cs with
      | none => rw [he] at h; cases h
      | some pr2 =>
        obtain ⟨m02, gs2⟩ := pr2
        rw [he] at h
        cases h
        exact ih gs2 he

/-- C10: for every template that compiles and every input string,
whenever match(input) is not false (and does not throw while
decoding), the returned path equals the entire input string: the
compiled pattern is anchored at both ends, so a successful match is
never a proper substring of the input. -/
theorem c10_path_is_whole_input (t input : String) (res : MatchResult)
    (h : tryMatch t input = .ok (.ok (some res))) : res.path = input := by
  unfold tryMatch at h
  cases hc : compile t with
  | error e => rw [hc] at h; simp [Except.map] at h
  | ok M =>
    rw [hc] at h
    simp only [Except.map, Except.ok.injEq] at h
    unfold matchInput at h
    split at h
    · simp at h
    · rename_i m0 groups heq
      split at h
      · rename_i ps hps
        simp only [Except.ok.injEq, Option.some.injEq] at h
        subst h
        exact execGo_path M.alts input.data m0 groups heq
      · simp at h

/-- buildParams fails exactly when some defined capture fails to
percent-decode with its key's decoder. -/
theorem buildParams_none_iff (pairs : List (Tok × Option String))
    (acc : List (String × PValue)) :
    buildParams pairs acc = none ↔
      ∃ pr ∈ pairs, ∃ v, pr.2 = some v ∧ decodeFor pr.1 v = none := by
  induction pairs generalizing acc with
  | nil => simp [buildParams]
  | cons p rest ih =>
    obtain ⟨k, ov⟩ := p
    cases ov with
    | none =>
      simp only [buildParams]
      rw [ih]
      constructor
      · rintro ⟨pr, hm, v, hv, hd⟩
        exact ⟨pr, List.mem_cons_of_mem _ hm, v, hv, hd⟩
      · rintro ⟨pr, hm, v, hv, hd⟩
        rcases List.mem_cons.mp hm with he | hm2
        · subst he; cases hv
        · exact ⟨pr, hm2, v, hv, hd⟩
    | some v =>
      cases hd : decodeFor k v with
      | some pv =>
        simp only [buildParams, hd]
        rw [ih]
        constructor
        · rintro ⟨pr, hm, v2, hv2, hd2⟩
          exact ⟨pr, List.mem_cons_of_mem _ hm, v2, hv2, hd2⟩
        · rintro ⟨pr, hm, v2, hv2, hd2⟩
          rcases List.mem_cons.mp hm with he | hm2
          · subst he
            simp only [Option.some.injEq] at hv2
            subst hv2
            rw [hd] at hd2
            cases hd2
          · exact ⟨pr, hm2, v2, hv2, hd2⟩
      | none =>
        simp only [buildParams, hd]
        constructor
        · intro _
          exact ⟨(k, some v), List.mem_cons_self _ _, v, rfl, hd⟩
        · intro _
          trivial

/-- C1 amended: match throws only on a failed percent-decode.  For
every compiled matcher and input, match raises an error exactly when
the pattern matches and some defined captured value fails to decode
with its key's decoder; and an input the pattern does not match is the
normal false result (ok none), never a throw. -/
theorem c1_amended_match_throws_iff (M : Matcher) (input : String) :
    ((∃ e, matchInput M input = .error e) ↔
      ∃ m0 gs, execGo M.alts input.data = some (m0, gs) ∧
        ∃ pr ∈ M.keys.zip gs, ∃ v, pr.2 = some v ∧ decodeFor pr.1 v = none) ∧
    (execGo M.alts input.data = none → matchInput M input = .ok none) := by
  constructor
  · constructor
    · rintro ⟨e, he⟩
      unfold matchInput at he
      split at he
      · simp at he
      · rename_i m0 groups heq
        split at he
        · simp at he
        · rename_i hb
          exact ⟨m0, groups, heq, (buildParams_none_iff _ []).mp hb⟩
    · rintro ⟨m0, gs, heq, hfail⟩
      refine ⟨.uriError, ?_⟩
      unfold matchInput
      split
      · rename_i h0
        rw [h0] at heq
        cases heq
      · rename_i m02 gs2 heq2
        rw [heq] at heq2
        simp only [Option.some.injEq, Prod.mk.injEq] at heq2
        obtain ⟨e1, e2⟩ := heq2
        subst e1
        subst e2
        split
        · rename_i ps hb
          have hnone : buildParams (M.keys.zip gs) [] = none :=
            (buildParams_none_iff _ []).mpr hfail
          rw [hnone] at hb
          cases hb
        · rfl
  · intro he
    unfold matchInput
    rw [he]

/-- Witness for C1 amended: a non-matching input yields the normal
false result through the theorem's second conjunct. -/
theorem c1_amended_witness :
    execGo demoMatcher.alts ("/xyz" : String).data = none ∧
    matchInput demoMatcher "/xyz" = .ok none := by
  constructor
  · decide
  · exact (c1_amended_match_throws_iff demoMatcher "/xyz").2 (by decide)

/-- The parser never accepts a reserved simple token: whenever one
occurs in the token stream, the parse ends in an error (either at that
token, or earlier at another offending token). -/
theorem parseLoop_reserved (endIdx : Nat) (ts : List LexTok) (cur : List Tok)
    (stk : List (List Tok)) (h : ∃ tk ∈ ts, isReservedTok tk = true) :
    ∃ e, parseLoop endIdx ts cur stk = .error e := by
  induction ts generalizing cur stk with
  | nil => simp at h
  | cons tk ts ih =>
    obtain ⟨tk2, htk2, hres⟩ := h
    rcases List.mem_cons.mp htk2 with heq | hmem
    · subst heq
      cases tk2 with
      | simple c i =>
        simp only [isReservedTok, Bool.and_eq_true, bne_iff_ne, ne_eq,
          decide_eq_true_eq] at hres
        simp only [parseLoop]
        rw [if_neg, if_neg]
        · exact ⟨_, rfl⟩
        · simp [hres.2]
        · simp [hres.1]
      | escaped c i => simp [isReservedTok] at hres
      | char c i => simp [isReservedTok] at hres
      | param n i => simp [isReservedTok] at hres
      | wildcard n i => simp [isReservedTok] at hres
    · cases tk with
      | char c i => exact ih (addText cur c) stk ⟨tk2, hmem, hres⟩
      | escaped oc i =>
        cases oc with
        | none => exact ih cur stk ⟨tk2, hmem, hres⟩
        | some c => exact ih (addText cur c) stk ⟨tk2, hmem, hres⟩
      | param n i => exact ih (.param n :: cur) stk ⟨tk2, hmem, hres⟩
      | wildcard n i => exact ih (.wildcard n :: cur) stk ⟨tk2, hmem, hres⟩
      | simple c i =>
        simp only [parseLoop]
        by_cases hc1 : c = '{'
        · rw [if_pos hc1]
          exact ih [] (cur :: stk) ⟨tk2, hmem, hres⟩
        · rw [if_neg hc1]
          by_cases hc2 : c = '}'
          · rw [if_pos hc2]
            cases stk with
            | nil => exact ⟨_, rfl⟩
            | cons parent stk2 =>
              exact ih (.group cur.reverse :: parent) stk2 ⟨tk2, hmem, hres⟩
          · rw [if_neg hc2]
            exact ⟨_, rfl⟩

/-- C2 amended: the reserved single characters (, ), [, ], +, ?, !
have their own token kinds, and the parser rejects them: every
template in which the lexer produces such a token fails to compile
with some TypeError. -/
theorem c2_amended_reserved_rejected (t : String) (toks : List LexTok)
    (hlex : lexer t = .ok toks) (hres : ∃ tk ∈ toks, isReservedTok tk = true) :
    ∃ e, compile t = .error e := by
  obtain ⟨e, he⟩ := parseLoop_reserved t.length toks [] [] hres
  have hp : parse t = .error e := by
    unfold parse
    rw [hlex]
    exact he
  unfold compile
  rw [hp]
  exact ⟨e, rfl⟩

/-- Witness for C2 amended at the template "(". -/
theorem c2_amended_witness : ∃ e, compile "(" = .error e := by
  exact c2_amended_reserved_rejected "(" [LexTok.simple '(' 0] (by decide) (by decide)

/-- C4 amended: a template ending in a lone backslash is not
rejected: the lexer turns the dangling backslash into an ESCAPED token
carrying no codepoint, the parser drops such a token wherever it
appears, and the template parses exactly like the template without the
dangling backslash. -/
theorem c4_amended_trailing_backslash_ignored :
    (∀ (endIdx i : Nat) (ts : List LexTok) (cur : List Tok) (stk : List (List Tok)),
      parseLoop endIdx (LexTok.escaped none i :: ts) cur stk = parseLoop endIdx ts cur stk) ∧
    lexer "\\" = .ok [LexTok.escaped none 0] ∧
    parse "a\\" = parse "a" := by
  refine ⟨fun endIdx i ts cur stk => rfl, rfl, rfl⟩

/-- Witness for C10 at the template /a/:id and input /a/123. -/
theorem c10_witness :
    tryMatch "/a/:id" "/a/123" =
      .ok (.ok (some ⟨"/a/123", [("id", PValue.str "123")]⟩)) ∧
    MatchResult.path ⟨"/a/123", [("id", PValue.str "123")]⟩ = "/a/123" := by
  constructor
  · decide
  · exact c10_path_is_whole_input "/a/:id" "/a/123" _ (by decide)

/-- On a template whose tokens are all literal, the lexed text is the
template with its escape characters removed. -/
theorem lexLoop_text (fuel : Nat) :
    ∀ (cs : List Char) (i : Nat) (toks : List LexTok),
      cs.length ≤ fuel → lexLoop fuel cs i = .ok toks →
      (∀ tk ∈ toks, isTextTok tk = true) → textOfToks toks = removeEscapesL cs := by
  induction fuel with
  | zero =>
    intro cs i toks hlen hlex htext
    cases cs with
    | nil =>
      simp only [lexLoop] at hlex
      cases hlex
      rfl
    | cons c rest => simp at hlen
  | succ f ih =>
    intro cs i toks hlen hlex htext
    cases cs with
    | nil =>
      simp only [lexLoop] at hlex
      cases hlex
      rfl
    | cons c rest =>
      simp only [List.length_cons] at hlen
      simp only [lexLoop] at hlex
      by_cases hs : SIMPLE_TOKENS c
      · rw [if_pos hs] at hlex
        cases hll : lexLoop f rest (i + 1) with
        | error e => rw [hll] at hlex; cases hlex
        | ok toks2 =>
          rw [hll] at hlex
          simp only [Except.map] at hlex
          cases hlex
          have := htext _ (List.mem_cons_self _ _)
          simp [isTextTok] at this
      · rw [if_neg hs] at hlex
        by_cases hb : c = '\\'
        · rw [if_pos hb] at hlex
          subst hb
          cases rest with
          | nil =>
            cases hlex
            rfl
          | cons d rest2 =>
            have hlex2 : Except.map (fun x => LexTok.escaped (some d) i :: x)
                (lexLoop f rest2 (i + 2)) = Except.ok toks := hlex
            cases hll : lexLoop f rest2 (i + 2) with
            | error e => rw [hll] at hlex2; cases hlex2
            | ok toks2 =>
              rw [hll] at hlex2
              simp only [Except.map] at hlex2
              cases hlex2
              have hrec := ih rest2 (i + 2) toks2 (by simp at hlen; omega) hll
                (fun tk hm => htext tk (List.mem_cons_of_mem _ hm))
              simp [textOfToks, removeEscapesL, hrec]
        · rw [if_neg hb] at hlex
          by_cases hcol : c = ':'
          · rw [if_pos hcol] at hlex
            cases hn : lexName rest i with
            | error e => rw [hn] at hlex; cases hlex
            | ok vc =>
              obtain ⟨v, k⟩ := vc
              rw [hn] at hlex
              have hlex2 : Except.map (fun x => LexTok.param v (i + 1 + k) :: x)
                  (lexLoop f (rest.drop k) (i + 1 + k)) = Except.ok toks := hlex
              cases hll : lexLoop f (rest.drop k) (i + 1 + k) with
              | error e => rw [hll] at hlex2; cases hlex2
              | ok toks2 =>
                rw [hll] at hlex2
                simp only [Except.map] at hlex2
                cases hlex2
                have := htext _ (List.mem_cons_self _ _)
                simp [isTextTok] at this
          · rw [if_neg hcol] at hlex
            by_cases hst : c = '*'
            · rw [if_pos hst] at hlex
              cases hn : lexName rest i with
              | error e => rw [hn] at hlex; cases hlex
              | ok vc =>
                obtain ⟨v, k⟩ := vc
                rw [hn] at hlex
                have hlex2 : Except.map (fun x => LexTok.wildcard v (i + 1 + k) :: x)
                    (lexLoop f (rest.drop k) (i + 1 + k)) = Except.ok toks := hlex
                cases hll : lexLoop f (rest.drop k) (i + 1 + k) with
                | error e => rw [hll] at hlex2; cases hlex2
                | ok toks2 =>
                  rw [hll] at hlex2
                  simp only [Except.map] at hlex2
                  cases hlex2
                  have := htext _ (List.mem_cons_self _ _)
                  simp [isTextTok] at this
            · rw [if_neg hst] at hlex
              cases hll : lexLoop f rest (i + 1) with
              | error e => rw [hll] at hlex; cases hlex
              | ok toks2 =>
                rw [hll] at hlex
                simp only [Except.map] at hlex
                cases hlex
                have hrec := ih rest (i + 1) toks2 (by omega) hll
                  (fun tk hm => htext tk (List.mem_cons_of_mem _ hm))
                simp only [textOfToks]
                rw [hrec]
                conv_rhs => rw [removeEscapesL.eq_def]
                simp [hb]

/-- Appending one literal codepoint to a pure text accumulator. -/
theorem addText_textRes (l : List Char) (c : Char) :
    addText (textRes l) c = textRes (l ++ [c]) := by
  cases l with
  | nil => rfl
  | cons d l2 =>
    simp only [textRes, if_neg (by simp : ¬(d :: l2 = [])),
      if_neg (by simp : ¬(d :: l2 ++ [c] = []))]
    rfl

/-- On a pure text token run the parser produces the merged text
node. -/
theorem parseLoop_text (endIdx : Nat) (ts : List LexTok)
    (htext : ∀ tk ∈ ts, isTextTok tk = true) :
    ∀ l : List Char, parseLoop endIdx ts (textRes l) [] = .ok (textRes (l ++ textOfToks ts)) := by
  induction ts with
  | nil =>
    intro l
    simp only [parseLoop, textOfToks, List.append_nil]
    cases hl : l with
    | nil => rfl
    | cons d l2 => simp [textRes]
  | cons tk ts ih =>
    intro l
    have htail : ∀ tk2 ∈ ts, isTextTok tk2 = true :=
      fun tk2 hm => htext tk2 (List.mem_cons_of_mem _ hm)
    cases tk with
    | char c i =>
      simp only [parseLoop]
      rw [addText_textRes, ih htail (l ++ [c])]
      simp [textOfToks]
    | escaped oc i =>
      cases oc with
      | some c =>
        simp only [parseLoop]
        rw [addText_textRes, ih htail (l ++ [c])]
        simp [textOfToks]
      | none =>
        simp only [parseLoop]
        rw [ih htail l]
        simp [textOfToks]
    | simple c i =>
      have := htext _ (List.mem_cons_self _ _)
      simp [isTextTok] at this
    | param n i =>
      have := htext _ (List.mem_cons_self _ _)
      simp [isTextTok] at this
    | wildcard n i =>
      have := htext _ (List.mem_cons_self _ _)
      simp [isTextTok] at this

/-- A run of literal items matches exactly its own text, consuming
everything. -/
theorem runSeq_lits (l : List Char) : runSeq (l.map Item.lit) l = some ([], []) := by
  induction l with
  | nil => rfl
  | cons c cs ih =>
    simp only [List.map_cons, runSeq, if_pos rfl]
    exact ih

/-- A matcher with a single all-literal alternative maps its own text
to that text with empty params. -/
theorem matchInput_lits (l : List Char) :
    matchInput ⟨[], [l.map Item.lit]⟩ ⟨l⟩ = .ok (some ⟨⟨l⟩, []⟩) := by
  unfold matchInput
  simp only [execGo, runSeq_lits]
  simp [List.take_length, buildParams]

/-- C9 amended: for every template whose tokens are all literal (no
param, wildcard, group or reserved tokens), matching the template text
with its escape characters removed succeeds, the returned path equals
that full literal text, and params is the empty mapping. -/
theorem c9_amended_roundtrip (t : String) (toks : List LexTok)
    (hlex : lexer t = .ok toks) (htext : ∀ tk ∈ toks, isTextTok tk = true) :
    tryMatch t (removeEscapes t) = .ok (.ok (some ⟨removeEscapes t, []⟩)) := by
  have htxt : textOfToks toks = removeEscapesL t.data :=
    lexLoop_text t.data.length t.data 0 toks (le_refl _) hlex htext
  have hstr : removeEscapes t = ⟨textOfToks toks⟩ := by
    unfold removeEscapes
    rw [htxt]
  have hp : parse t = .ok (textRes (textOfToks toks)) := by
    unfold parse
    rw [hlex]
    exact parseLoop_text t.length toks htext []
  rw [hstr]
  unfold tryMatch compile
  rw [hp]
  by_cases hKnil : textOfToks toks = []
  · rw [hKnil]
    rfl
  · have htr : textRes (textOfToks toks) = [Tok.text ⟨textOfToks toks⟩] := by
      unfold textRes
      rw [if_neg hKnil]
    rw [htr]
    have hcs : compileSeqs (flatten [Tok.text ⟨textOfToks toks⟩] []) [] [] =
        .ok ⟨[], [(textOfToks toks).map Item.lit]⟩ := rfl
    have hgoal : Except.map (fun M => matchInput M (⟨textOfToks toks⟩ : String))
        (compileSeqs (flatten [Tok.text ⟨textOfToks toks⟩] []) [] []) =
        Except.ok (Except.ok (some ⟨⟨textOfToks toks⟩, []⟩)) := by
      rw [hcs]
      simp only [Except.map]
      rw [matchInput_lits]
    exact hgoal

/-- Witness for C9 amended at the template "\\a" (whose text with the
escape removed is "a"). -/
theorem c9_amended_witness :
    tryMatch "\\a" (removeEscapes "\\a") = .ok (.ok (some ⟨removeEscapes "\\a", []⟩)) := by
  exact c9_amended_roundtrip "\\a" [LexTok.escaped (some 'a') 0] (by decide) (by decide)

/-- The empty sequence reaches no capture. -/
theorem startsWithCapture_nil : ¬startsWithCapture [] := by
  rintro ⟨mid, c, post, heq, _, _⟩
  cases mid <;> simp at heq

/-- Unfolding startsWithCapture one token at a time. -/
theorem startsWithCapture_cons (x : Tok) (rest : List Tok) :
    startsWithCapture (x :: rest) ↔
      isCapTok x = true ∨ (inert x = true ∧ startsWithCapture rest) := by
  constructor
  · rintro ⟨mid, c, post, heq, hcap, hin⟩
    cases mid with
    | nil =>
      simp only [List.nil_append, List.cons.injEq] at heq
      obtain ⟨h1, h2⟩ := heq
      subst h1
      exact Or.inl hcap
    | cons m mid2 =>
      simp only [List.cons_append, List.cons.injEq] at heq
      obtain ⟨h1, h2⟩ := heq
      subst h1
      refine Or.inr ⟨hin x (List.mem_cons_self _ _), mid2, c, post, h2, hcap, ?_⟩
      exact fun y hy => hin y (List.mem_cons_of_mem _ hy)
  · rintro (hx | ⟨hx, mid, c, post, heq, hcap, hin⟩)
    · exact ⟨[], x, rest, rfl, hx, by simp⟩
    · refine ⟨x :: mid, c, post, by rw [heq]; rfl, hcap, ?_⟩
      intro y hy
      rcases List.mem_cons.mp hy with h | h
      · subst h; exact hx
      · exact hin y h

/-- The empty sequence has no capture pair. -/
theorem hasAdjacentCaptures_nil : ¬hasAdjacentCaptures [] := by
  rintro ⟨pre, c, rest, heq, _, _⟩
  cases pre <;> simp at heq

/-- Unfolding hasAdjacentCaptures one token at a time. -/
theorem hasAdjacentCaptures_cons (x : Tok) (rest : List Tok) :
    hasAdjacentCaptures (x :: rest) ↔
      (isCapTok x = true ∧ startsWithCapture rest) ∨ hasAdjacentCaptures rest := by
  constructor
  · rintro ⟨pre, c, rest2, heq, hcap, hsw⟩
    cases pre with
    | nil =>
      simp only [List.nil_append, List.cons.injEq] at heq
      obtain ⟨h1, h2⟩ := heq
      subst h1
      subst h2
      exact Or.inl ⟨hcap, hsw⟩
    | cons p pre2 =>
      simp only [List.cons_append, List.cons.injEq] at heq
      obtain ⟨h1, h2⟩ := heq
      exact Or.inr ⟨pre2, c, rest2, h2, hcap, hsw⟩
  · rintro (⟨hx, hsw⟩ | ⟨pre, c, rest2, heq, hcap, hsw⟩)
    · exact ⟨[], x, rest, rfl, hx, hsw⟩
    · exact ⟨x :: pre, c, rest2, by rw [heq]; rfl, hcap, hsw⟩

/-- Appending the empty string is the identity. -/
theorem strAppend_emptyStr (s : String) : s ++ "" = s := by
  cases s with
  | mk data => exact congrArg String.mk (List.append_nil data)

/-- A string with a nonempty suffix is nonempty. -/
theorem strAppend_ne_empty (s v : String) (hv : ¬v = "") : ¬(s ++ v = "") := by
  intro h
  apply hv
  cases s with
  | mk ds =>
    cases v with
    | mk dv =>
      have : ds ++ dv = ([] : List Char) := congrArg String.data h
      have h2 : dv = [] := by
        cases ds with
        | nil => exact this
        | cons a as => simp at this
      rw [h2]

/-- The sequence compiler errs, from any state, exactly when the
state is unsafe with empty backtrack and a capture comes before any
other text, or when two captures stand with only inert tokens between
them. -/
theorem seqGo_error_iff (seq : List Tok) :
    ∀ (acc : List Item) (keys : List Tok) (backtrack : String) (safe : Bool),
    (∃ e, seqGo seq acc keys backtrack safe = .error e) ↔
      ((safe = false ∧ backtrack = "") ∧ startsWithCapture seq) ∨ hasAdjacentCaptures seq := by
  induction seq with
  | nil =>
    intro acc keys backtrack safe
    simp [seqGo, startsWithCapture_nil, hasAdjacentCaptures_nil]
  | cons t rest ih =>
    intro acc keys backtrack safe
    cases t with
    | text v =>
      rw [show seqGo (.text v :: rest) acc keys backtrack safe =
          seqGo rest (acc ++ v.data.map Item.lit) keys (backtrack ++ v)
            (safe || v.data.contains '/') from rfl]
      rw [ih]
      rw [startsWithCapture_cons, hasAdjacentCaptures_cons]
      by_cases hv : v = ""
      · subst hv
        rw [strAppend_emptyStr]
        simp [inert, isCapTok]
      · have hne := strAppend_ne_empty backtrack v hv
        simp [inert, isCapTok, hv, hne]
    | param n =>
      by_cases hcond : safe = false ∧ backtrack = ""
      · have hstep : seqGo (.param n :: rest) acc keys backtrack safe =
            .error (.missingText n) := by
          simp only [seqGo]
          rw [if_pos hcond]
        constructor
        · intro _
          exact Or.inl ⟨hcond, [], .param n, rest, rfl, rfl, by simp⟩
        · intro _
          exact ⟨.missingText n, hstep⟩
      · have hstep : seqGo (.param n :: rest) acc keys backtrack safe =
            seqGo rest (acc ++ [.cap (negate "/" (if safe then "" else backtrack))])
              (keys ++ [.param n]) "" false := by
          simp only [seqGo]
          rw [if_neg hcond]
        rw [hstep, ih]
        rw [startsWithCapture_cons, hasAdjacentCaptures_cons]
        simp [isCapTok, inert, hcond]
    | wildcard n =>
      by_cases hcond : safe = false ∧ backtrack = ""
      · have hstep : seqGo (.wildcard n :: rest) acc keys backtrack safe =
            .error (.missingText n) := by
          simp only [seqGo]
          rw [if_pos hcond]
        constructor
        · intro _
          exact Or.inl ⟨hcond, [], .wildcard n, rest, rfl, rfl, by simp⟩
        · intro _
          exact ⟨.missingText n, hstep⟩
      · have hstep : seqGo (.wildcard n :: rest) acc keys backtrack safe =
            seqGo rest (acc ++ [.cap anyCharOnce]) (keys ++ [.wildcard n]) "" false := by
          simp only [seqGo]
          rw [if_neg hcond]
        rw [hstep, ih]
        rw [startsWithCapture_cons, hasAdjacentCaptures_cons]
        simp [isCapTok, inert, hcond]
    | group g =>
      rw [show seqGo (.group g :: rest) acc keys backtrack safe =
          seqGo rest acc keys backtrack safe from rfl]
      rw [ih]
      rw [startsWithCapture_cons, hasAdjacentCaptures_cons]
      simp [isCapTok, inert]

/-- C3 amended: compiling one flattened sequence raises the
missing-text error exactly when some capture follows an earlier
capture with only inert tokens (empty literal text) between them; the
segment-safe flag starts out true, so a capture standing at the very
start of a sequence is not, by itself, an error. -/
theorem c3_amended_missing_text_iff (seq : List Tok) :
    (∃ e, sequenceToRegExp seq = .error e) ↔ hasAdjacentCaptures seq := by
  unfold sequenceToRegExp
  rw [seqGo_error_iff seq [] [] "" true]
  simp

end Styrene
